import Mathlib

/-!
Shallow embedding of the page-oriented B+Tree of
src/include/moderndbs/btree.h (template BTree<KeyT, ValueT, ComparatorT,
PageSize>) and proofs about it.

Modelling conventions, fixed throughout this file:
* KeyT and ValueT are modelled as Int, page ids as Nat.
* A page is a record with a level, a count, and three total functions
  giving the raw contents of the keys, values and children arrays.  The
  C++ code overlays LeafNode and InnerNode on the same bytes; a page is
  only ever used with one kind in every reachable execution, so the
  record carries both the values and the children array.  Reads beyond
  the valid part of an array (which the C++ performs in several places)
  read whatever the total function holds there; a freshly fixed page is
  all zeroes, matching a zero-filled new page from the buffer manager.
* The uint16 count field wraps modulo 65536 exactly where the C++
  arithmetic can wrap (the decrement in LeafNode::erase); the unsigned
  32-bit length argument of the memmove in LeafNode::erase wraps modulo
  2^32 as in the source.
* The buffer manager is modelled as the map of page contents inside
  TreeState plus an event log recording every fix_page / unfix_page call
  with its exclusive / dirty flag, and a marker event for each leaf or
  inner split that executes.  fix_page itself never alters page
  contents; writes performed while a page is fixed are modelled as
  functional updates of the page map at the moment the C++ writes.
* The unbounded while loops of the C++ (the descent loops of lookup,
  insert and erase, and the binary-search loop of lower_bound) are
  modelled with an explicit fuel argument; the top-level binary search
  passes fuel count + 1, which is always sufficient, and the tree-level
  theorems about concrete scenarios use an ample fixed fuel.
-/

/-- Raw contents of one fixed-size page, decoded to the fields that the
Node, LeafNode and InnerNode structs of the source overlay on it. -/
structure Page where
  level : Nat
  count : Nat
  keys : Nat → Int
  values : Nat → Int
  children : Nat → Nat

/-- A freshly fixed, never written page: all bytes zero. -/
def zeroPage : Page :=
  { level := 0, count := 0, keys := fun _ => 0, values := fun _ => 0
    children := fun _ => 0 }

/-- Reduction modulo 2^16, the wrap of the uint16 count field. -/
def u16 (n : Nat) : Nat := n % 65536

/-- List of the first n entries of an array, as std::vector-ification of
the raw array does in get_key_vector / get_value_vector /
get_child_vector. -/
def listOf {α : Type} (f : Nat → α) (n : Nat) : List α :=
  (List.range n).map f

/-- Model of std::vector::insert(begin() + n, a). -/
def insertAt {α : Type} (l : List α) (n : Nat) (a : α) : List α :=
  l.take n ++ a :: l.drop n

/-- Write-back loop of the source: for i < n, if i is within the vector
write vector[i] into the array, else keep the old array entry. -/
def writeN {α : Type} (f : Nat → α) (v : List α) (n : Nat) : Nat → α :=
  fun i => if i < n ∧ i < v.length then v.getD i (f i) else f i

/-- Node::is_leaf from the source: level == 0. -/
def Node.is_leaf (p : Page) : Bool := p.level = 0

/-- Loop of the binary search shared by LeafNode::lower_bound and
InnerNode::lower_bound (the two bodies are textually identical in the
source).  first and last are the C++ int variables, index the
std::optional<uint32_t>.  The fuel argument only bounds the iteration
count; callers pass enough fuel that it is never exhausted. -/
def lbLoop (keys : Nat → Int) (target : Int) :
    Nat → Int → Int → Option Nat → Nat × Bool
  | 0, _, _, _ => (0, false)
  | fuel + 1, first, last, index =>
    if first ≤ last then
      let middle := first + (last - first) / 2
      if target = keys middle.toNat then (middle.toNat, true)
      else if target > keys middle.toNat then
        lbLoop keys target fuel (middle + 1) last index
      else
        lbLoop keys target fuel first (middle - 1) (some middle.toNat)
    else
      match index with
      | some m => (m, true)
      | none => (0, false)

/-- Body shared by LeafNode::lower_bound and InnerNode::lower_bound:
binary search over keys[0 .. count-1] (note: count entries in BOTH
cases, the inner variant also sets last = count - 1), with the early
returns for an empty node and for last == 1 with keys[0] > target. -/
def lower_bound_impl (keys : Nat → Int) (count : Nat) (target : Int) :
    Nat × Bool :=
  let first : Int := 0
  let last : Int := (count : Int) - 1
  if last < first then (0, false)
  else if last = 1 ∧ keys 0 > target then (0, true)
  else lbLoop keys target (count + 1) first last none

/-- LeafNode::lower_bound from the source. -/
def LeafNode.lower_bound (p : Page) (target : Int) : Nat × Bool :=
  lower_bound_impl p.keys p.count target

/-- InnerNode::lower_bound from the source (same body, searching the
first count array slots although an inner node only has count - 1 valid
separator keys). -/
def InnerNode.lower_bound (p : Page) (target : Int) : Nat × Bool :=
  lower_bound_impl p.keys p.count target

/-- LeafNode::insert from the source: upsert through vectorified keys
and values arrays, then write-back of the first count entries. -/
def LeafNode.insert (p : Page) (k v : Int) : Page :=
  let lb := LeafNode.lower_bound p k
  let keysV := listOf p.keys p.count
  let valsV := listOf p.values p.count
  if lb.2 ∧ k ≥ p.keys lb.1 then
    -- update value for existing key, count unchanged
    let valsV1 := valsV.set lb.1 v
    { p with keys := writeN p.keys keysV p.count
             values := writeN p.values valsV1 p.count }
  else
    let keysV1 := if lb.2 then insertAt keysV lb.1 k
                  else insertAt keysV p.count k
    let valsV1 := if lb.2 then insertAt valsV lb.1 v
                  else insertAt valsV p.count v
    let count1 := u16 (p.count + 1)
    { p with count := count1
             keys := writeN p.keys keysV1 count1
             values := writeN p.values valsV1 count1 }

/-- LeafNode::erase from the source.  Note the source checks
keys[lower_bound.first] == key without consulting the found flag, moves
(count - index - 1) entries with unsigned 32-bit arithmetic and then
decrements the uint16 count. -/
def LeafNode.erase (p : Page) (k : Int) : Page :=
  let lb := LeafNode.lower_bound p k
  let i := lb.1
  if p.keys i = k then
    let moveLen := (p.count + 4294967296 - (i + 1)) % 4294967296
    { p with
      count := u16 (p.count + 65535)
      keys := fun j => if i ≤ j ∧ j < i + moveLen then p.keys (j + 1)
                       else p.keys j
      values := fun j => if i ≤ j ∧ j < i + moveLen then p.values (j + 1)
                         else p.values j }
  else p

/-- LeafNode::split from the source: middle = (count - 1) / 2, the lower
count - middle entries stay, middle keys and middle + 1 values are
copied to the target page starting at offset count - middle (the last
copied value is the read one past the end of the values array performed
by the source std::copy), and the separator is keys[middle + 1].  The
level of the target page is not written. -/
def LeafNode.split (p fresh : Page) : Page × Page × Int :=
  let middle := (p.count - 1) / 2
  let newCount := p.count - middle
  let left : Page := { p with count := u16 newCount }
  let sep := p.keys (middle + 1)
  let right : Page :=
    { fresh with
      count := u16 middle
      keys := fun i => if i < middle then p.keys (newCount + i)
                       else fresh.keys i
      values := fun i => if i < middle + 1 then p.values (newCount + i)
                         else fresh.values i }
  (left, right, sep)

/-- InnerNode key vector (get_key_vector): count - 1 keys, or none when
count is zero. -/
def innerKeyVector (p : Page) : List Int :=
  listOf p.keys (if p.count = 0 then 0 else p.count - 1)

/-- InnerNode::insert from the source, including the special count == 1
branch (which appends only the child) and the nested index adjustment
on the found path. -/
def InnerNode.insert (p : Page) (k : Int) (child : Nat) : Page :=
  let lb := InnerNode.lower_bound p k
  let keysV := innerKeyVector p
  let childV := listOf p.children p.count
  if p.count = 1 then
    let childV1 := childV ++ [child]
    let count1 := u16 (p.count + 1)
    { p with count := count1, children := writeN p.children childV1 count1 }
  else
    if lb.2 then
      let keysV1 := insertAt keysV lb.1 k
      if lb.1 < p.count - 1 ∧ k > p.keys lb.1 then
        -- branch labelled "existing key" in the source: replace the
        -- child, write back without incrementing count
        let childV1 := childV.set lb.1 child
        { p with keys := writeN p.keys keysV1 p.count
                 children := writeN p.children childV1 p.count }
      else
        let idx := if lb.1 < p.count - 1 then lb.1 + 1 else lb.1
        let childV1 := insertAt childV idx child
        let count1 := u16 (p.count + 1)
        { p with count := count1
                 keys := writeN p.keys keysV1 count1
                 children := writeN p.children childV1 count1 }
    else
      let keysV1 := keysV ++ [k]
      let childV1 := childV ++ [child]
      let count1 := u16 (p.count + 1)
      { p with count := count1
               keys := writeN p.keys keysV1 count1
               children := writeN p.children childV1 count1 }

/-- InnerNode::split from the source: middle = count / 2, the lower
count - middle children stay, middle - 1 keys and middle children move
to the target page (which receives the same level), and the separator is
keys[count - 1] read after the count reduction. -/
def InnerNode.split (p fresh : Page) : Page × Page × Int :=
  let middle := p.count / 2
  let newCount := p.count - middle
  let left : Page := { p with count := u16 newCount }
  let right : Page :=
    { fresh with
      level := p.level
      count := u16 middle
      keys := fun i => if i < middle - 1 then p.keys (newCount + i)
                       else fresh.keys i
      children := fun i => if i < middle then p.children (newCount + i)
                           else fresh.children i }
  let sep := p.keys (newCount - 1)
  (left, right, sep)

/-- Buffer-manager interaction record: one entry per fix_page / unfix_page
call with its exclusive resp. dirty flag, plus a marker for each
executed leaf or inner split. -/
inductive Event where
  | fix (pid : Nat) (exclusive : Bool)
  | unfix (pid : Nat) (dirty : Bool)
  | splitLeaf
  | splitInner
deriving DecidableEq

/-- Whole-tree state: the contents of every page (total map over page
ids, unwritten pages are zero-filled), the optional root page id and the
next_page_id allocator of the BTree object, and the event log. -/
structure TreeState where
  pages : Nat → Page
  root : Option Nat
  next_page_id : Nat
  log : List Event

/-- State of a freshly constructed BTree over an empty segment.  The
source leaves next_page_id uninitialized until the first insert; it is
never read before that, so the model starts it at 0. -/
def initState : TreeState :=
  { pages := fun _ => zeroPage, root := none, next_page_id := 0, log := [] }

/-- Record a fix_page call. -/
def fixE (s : TreeState) (pid : Nat) (exclusive : Bool) : TreeState :=
  { s with log := s.log ++ [Event.fix pid exclusive] }

/-- Record an unfix_page call. -/
def unfixE (s : TreeState) (pid : Nat) (dirty : Bool) : TreeState :=
  { s with log := s.log ++ [Event.unfix pid dirty] }

/-- Record a split marker. -/
def markE (s : TreeState) (e : Event) : TreeState :=
  { s with log := s.log ++ [e] }

/-- Overwrite the contents of one page. -/
def setPage (s : TreeState) (pid : Nat) (p : Page) : TreeState :=
  { s with pages := fun q => if q = pid then p else s.pages q }

/-- Descent loop of BTree::lookup: while the node is inner, route to the
child picked by lower_bound (found index, else count - 1), lock-coupling
fix child then unfix current; at the leaf return the value only when the
key at the found index compares equal. -/
def lookupLoop (k : Int) : Nat → TreeState → Nat → TreeState × Option Int
  | 0, s, _ => (s, none)
  | fuel + 1, s, cur =>
    let node := s.pages cur
    if Node.is_leaf node then
      let lb := LeafNode.lower_bound node k
      let value := if lb.2 ∧ node.keys lb.1 = k then some (node.values lb.1)
                   else none
      (unfixE s cur false, value)
    else
      let lb := InnerNode.lower_bound node k
      let childIndex := if lb.2 then lb.1 else node.count - 1
      let nextPage := node.children childIndex
      let s1 := fixE s nextPage false
      let s2 := unfixE s1 cur false
      lookupLoop k fuel s2 nextPage

/-- BTree::lookup from the source. -/
def BTree.lookup (fuel : Nat) (s : TreeState) (k : Int) :
    TreeState × Option Int :=
  match s.root with
  | none => (s, none)
  | some r => lookupLoop k fuel (fixE s r false) r

/-- Descent loop of BTree::erase: identical routing to lookup (pages
fixed non-exclusively, as in the source), then LeafNode::erase on the
reached leaf.  The source returns without unfixing the leaf page. -/
def eraseLoop (k : Int) : Nat → TreeState → Nat → TreeState
  | 0, s, _ => s
  | fuel + 1, s, cur =>
    let node := s.pages cur
    if Node.is_leaf node then
      setPage s cur (LeafNode.erase node k)
    else
      let lb := InnerNode.lower_bound node k
      let childIndex := if lb.2 then lb.1 else node.count - 1
      let nextPage := node.children childIndex
      let s1 := fixE s nextPage false
      let s2 := unfixE s1 cur false
      eraseLoop k fuel s2 nextPage

/-- BTree::erase from the source. -/
def BTree.erase (fuel : Nat) (s : TreeState) (k : Int) : TreeState :=
  match s.root with
  | none => s
  | some r => eraseLoop k fuel (fixE s r false) r

/-- Body of the while loop of BTree::insert.  cur is bufferFrame, parent
is bufferFrame_parent (none while the C++ pointer is still unset), ppid
is the parent_page_id variable (which the source initializes to the root
id and only reassigns when a root LEAF splits), onRoot the bool of the
same name.  cap is the compile-time kCapacity shared by both node
kinds. -/
def insertLoop (cap : Nat) (k v : Int) :
    Nat → TreeState → Nat → Option Nat → Bool → Bool → Bool → Nat →
    TreeState
  | 0, s, _, _, _, _, _, _ => s
  | fuel + 1, s, cur, parent, isDirty, isDirtyP, onRoot, ppid =>
    let node := s.pages cur
    if Node.is_leaf node then
      if node.count = cap then
        -- leaf needs to be split
        let newLeafId := s.next_page_id
        let s := { s with next_page_id := s.next_page_id + 1 }
        let s := fixE s newLeafId true
        let res := LeafNode.split node (s.pages newLeafId)
        let s := setPage (setPage s cur res.1) newLeafId res.2.1
        let s := markE s Event.splitLeaf
        let sep := res.2.2
        let isDirty := true
        if ppid = 0 then
          -- the leaf is the only (root) node: build a new root
          let oldLeafId := s.root.getD 0
          let newRootId := s.next_page_id
          let s := { s with next_page_id := s.next_page_id + 1
                            root := some newRootId }
          let ppid := newRootId
          let s := fixE s newRootId true
          let isDirtyP := true
          let r0 := s.pages newRootId
          let r1 := { r0 with level := 1, count := 0 }
          let r2 := InnerNode.insert r1 sep oldLeafId
          let r3 := InnerNode.insert r2 sep newLeafId
          let s := setPage s newRootId r3
          let parent := some newRootId
          if sep < k then
            let s := unfixE s cur isDirty
            insertLoop cap k v fuel s newLeafId parent isDirty isDirtyP
              false ppid
          else
            insertLoop cap k v fuel s cur parent isDirty isDirtyP
              false ppid
        else
          -- the leaf has a parent inner node with spare capacity
          let pId := parent.getD 0
          let pn := InnerNode.insert (s.pages pId) sep newLeafId
          let s := setPage s pId pn
          let isDirtyP := true
          if k < sep then
            let s := unfixE s newLeafId isDirty
            insertLoop cap k v fuel s cur parent isDirty isDirtyP
              false ppid
          else
            let s := unfixE s cur isDirty
            insertLoop cap k v fuel s newLeafId parent isDirty isDirtyP
              false ppid
      else
        -- leaf is not full: insert and unwind
        let s := setPage s cur (LeafNode.insert node k v)
        let isDirty := true
        let s := if ppid ≠ 0 then
                   match parent with
                   | some pId => unfixE s pId isDirtyP
                   | none => s
                 else s
        unfixE s cur isDirty
    else
      if node.count = cap then
        -- inner node is full: split it
        let newInnerId := s.next_page_id
        let s := { s with next_page_id := s.next_page_id + 1 }
        let s := fixE s newInnerId true
        let res := InnerNode.split node (s.pages newInnerId)
        let s := setPage (setPage s cur res.1) newInnerId res.2.1
        let s := markE s Event.splitInner
        let sep := res.2.2
        if onRoot then
          -- the inner node is the root: build a new root above it
          let oldRootId := s.root.getD 0
          let newRootId := s.next_page_id
          let s := { s with next_page_id := s.next_page_id + 1
                            root := some newRootId }
          let s := fixE s newRootId true
          let r0 := s.pages newRootId
          let r1 := { r0 with level := node.level + 1 }
          let r2 := InnerNode.insert r1 sep oldRootId
          let r3 := InnerNode.insert r2 sep newInnerId
          let s := setPage s newRootId r3
          let isDirty := true
          let parent := some newRootId
          if sep < k then
            let s := unfixE s cur isDirty
            insertLoop cap k v fuel s newInnerId parent isDirty isDirtyP
              false ppid
          else
            insertLoop cap k v fuel s cur parent isDirty isDirtyP
              false ppid
        else
          -- promote the separator into the existing parent
          let pId := parent.getD 0
          let p0 := s.pages pId
          let p1 := { p0 with level := node.level + 1 }
          let p2 := InnerNode.insert p1 sep newInnerId
          let s := setPage s pId p2
          let isDirty := true
          let isDirtyP := true
          let lb := InnerNode.lower_bound (s.pages pId) k
          if lb.2 then
            let s := unfixE s newInnerId isDirty
            insertLoop cap k v fuel s cur parent isDirty isDirtyP
              false ppid
          else
            let s := unfixE s cur isDirty
            insertLoop cap k v fuel s newInnerId parent isDirty isDirtyP
              false ppid
      else
        -- inner node has spare capacity: descend
        let lb := InnerNode.lower_bound node k
        let s := if ¬ onRoot then
                   match parent with
                   | some pId => unfixE s pId isDirtyP
                   | none => s
                 else s
        let parent := some cur
        let childId := if lb.2 then node.children lb.1
                       else node.children (node.count - 1)
        let s := fixE s childId true
        insertLoop cap k v fuel s childId parent isDirty isDirtyP
          false ppid

/-- BTree::insert from the source: create the root on first use, fix it
exclusively, and run the preemptive-split descent loop. -/
def BTree.insert (cap fuel : Nat) (s : TreeState) (k v : Int) : TreeState :=
  let s := if s.root = none then
             { s with root := some 0, next_page_id := 1 }
           else s
  let rootId := s.root.getD 0
  let s := fixE s rootId true
  insertLoop cap k v fuel s rootId none false false true rootId

/-- One public operation of the tree interface. -/
inductive Op where
  | ins (k v : Int)
  | del (k : Int)

/-- Apply one operation (lookup is read-only and is stated separately). -/
def applyOp (cap fuel : Nat) (s : TreeState) : Op → TreeState
  | Op.ins k v => BTree.insert cap fuel s k v
  | Op.del k => BTree.erase fuel s k

/-- Apply a sequence of operations to a state. -/
def applyOps (cap fuel : Nat) (s : TreeState) (l : List Op) : TreeState :=
  l.foldl (applyOp cap fuel) s

/-- Keys of all leaves of the subtree rooted at a page, read left to
right (observation function for the order-preservation property). -/
def leafKeysAux (pages : Nat → Page) : Nat → Nat → List Int
  | 0, _ => []
  | fuel + 1, pid =>
    let p := pages pid
    if p.level = 0 then listOf p.keys p.count
    else ((List.range p.count).map
           (fun i => leafKeysAux pages fuel (p.children i))).flatten

/-- Keys of all leaves of the tree, read left to right. -/
def leafScan (fuel : Nat) (s : TreeState) : List Int :=
  match s.root with
  | none => []
  | some r => leafKeysAux s.pages fuel r

/-- Number of fix events in a log. -/
def countFix (l : List Event) : Nat :=
  (l.filter (fun e => match e with | Event.fix _ _ => true | _ => false)).length

/-- Number of unfix events in a log. -/
def countUnfix (l : List Event) : Nat :=
  (l.filter (fun e => match e with | Event.unfix _ _ => true | _ => false)).length

/-- Number of leaf splits recorded in a log. -/
def countLeafSplits (l : List Event) : Nat :=
  (l.filter (fun e => match e with | Event.splitLeaf => true | _ => false)).length

/-- Number of unfix events with the dirty flag set in a log. -/
def dirtyUnfixes (l : List Event) : Nat :=
  (l.filter (fun e => match e with | Event.unfix _ true => true | _ => false)).length

/-- Valid (key, value) pairs of a leaf page. -/
def pairList (p : Page) : List (Int × Int) :=
  listOf (fun i => (p.keys i, p.values i)) p.count

/-- Valid separator keys of an inner page (count - 1 of them). -/
def sepList (p : Page) : List Int :=
  listOf p.keys (p.count - 1)

/-- Valid child page ids of an inner page (count of them). -/
def childList (p : Page) : List Nat :=
  listOf p.children p.count

/-!
Concrete scenarios.  toyOps is the toy scenario of the specification
(capacity 4, sequential keys 1..5); dupOps extends it with keys 6 and 7
and then an upsert of key 6, the input on which round-trip and order
preservation fail.
-/

/-- Toy scenario inserts: keys 1..5 with values 101..105, capacity 4. -/
def toyOps : List Op :=
  [Op.ins 1 101, Op.ins 2 102, Op.ins 3 103, Op.ins 4 104, Op.ins 5 105]

/-- Tree state after the toy scenario. -/
def toySt : TreeState := applyOps 4 50 initState toyOps

/-- Inserts 1..7 followed by an upsert of key 6 with value 999.  The
upsert arrives while the leaf holding keys 4..7 is full; the leaf splits
with separator 6 and the source routes the equal key to the NEW right
page although the record of key 6 stays on the left page. -/
def dupOps : List Op :=
  toyOps ++ [Op.ins 6 106, Op.ins 7 107, Op.ins 6 999]

/-- Tree state after dupOps. -/
def dupSt : TreeState := applyOps 4 50 initState dupOps

/-- Tree holding only key 1, then that key erased: the root leaf has
count 0 but its keys array still holds the stale key 1 at slot 0. -/
def eSt1 : TreeState := applyOps 4 50 initState [Op.ins 1 10, Op.del 1]

/-- eSt1 after erasing the (absent) key 1 a second time. -/
def eSt2 : TreeState := BTree.erase 50 eSt1 1

/-- Tree holding only key 1. -/
def fSt1 : TreeState := applyOps 4 50 initState [Op.ins 1 10]

/-- fSt1 after erase(1). -/
def fSt2 : TreeState := BTree.erase 50 fSt1 1

/-- Inner page as left of the old root after an inner root split of the
source (reachable, e.g., after inserting keys 1..12 with capacity 4):
count = 2, one valid separator key 3 at slot 0, and the stale promoted
separator 6 left behind in slot 1 = count - 1, which
InnerNode::lower_bound still searches. -/
def c4page : Page :=
  { level := 1, count := 2
    keys := fun i => if i = 0 then 3 else if i = 1 then 6 else 0
    values := fun _ => 0
    children := fun i => if i = 0 then 0 else if i = 1 then 1 else 0 }

/-- Full leaf with capacity 4: keys 1..4, values 101..104. -/
def c5leaf : Page :=
  { level := 0, count := 4
    keys := fun i => if i < 4 then (i : Int) + 1 else 0
    values := fun i => if i < 4 then (i : Int) + 101 else 0
    children := fun _ => 0 }

/-- Empty leaf whose keys array still holds the stale key 1 at slot 0,
the state a root leaf reaches after insert(1, v); erase(1). -/
def c10leaf : Page :=
  { level := 0, count := 0
    keys := fun i => if i = 0 then 1 else 0
    values := fun _ => 0, children := fun _ => 0 }

/-- C1: the round-trip property fails on the code.  After the operation
sequence dupOps, whose final operation is insert(6, 999), lookup(6)
still returns the earlier value 106: the upsert of key 6 was routed past
the split separator 6 into the new right leaf (page 3), which now holds
the pair (6, 999), while lookup routes the equal key to the left leaf
holding the stale pair (6, 106). -/
theorem C1_roundtrip_violation :
    (BTree.lookup 50 dupSt 6).2 = some 106 ∧
    pairList (dupSt.pages 3) = [(6, 999), (7, 107)] := by decide

/-- C2: order preservation fails on the code.  After the insert-only
sequence dupOps the left-to-right leaf scan contains key 6 twice, so it
is not strictly ascending and has a duplicate. -/
theorem C2_order_violation :
    leafScan 50 dupSt = [1, 2, 3, 4, 5, 6, 6, 7] ∧
    (leafScan 50 dupSt).count 6 = 2 := by decide

/-- C6: erase of an absent key is not a no-op.  In eSt1 key 1 is absent
(it was inserted and then erased, leaving count 0 with the stale key 1
in slot 0 of the root leaf).  Erasing it again matches the stale slot,
wraps the uint16 count from 0 to 65535, and changes observable lookup
results: lookup(0) was empty and afterwards returns a garbage value. -/
theorem C6_erase_not_noop :
    (eSt1.pages 0).count = 0 ∧ (eSt2.pages 0).count = 65535 ∧
    (BTree.lookup 50 eSt1 0).2 = none ∧
    (BTree.lookup 50 eSt2 0).2 = some 0 := by decide

/-- C7: fix/unfix balance fails on the code.  BTree::erase on the
one-leaf tree fSt1 fixes the root page and returns without unfixing it:
the log delta of the call is exactly one fix event and no unfix
event. -/
theorem C7_erase_leaks_fix :
    fSt2.log = fSt1.log ++ [Event.fix 0 false] ∧
    countFix (fSt2.log.drop fSt1.log.length) = 1 ∧
    countUnfix (fSt2.log.drop fSt1.log.length) = 0 := by decide

/-- C8: the toy scenario of the specification holds on the code.  With
capacity 4, inserting keys 1..5 into the empty tree performs exactly one
leaf split, the root (page 2) is an inner node of level 1 with two
children, both leaves, and one separator key 3; lookup(3) returns the
value 103 inserted for key 3 and lookup(6) returns empty. -/
theorem C8_toy_scenario :
    countLeafSplits toySt.log = 1 ∧
    toySt.root = some 2 ∧
    (toySt.pages 2).level = 1 ∧
    (toySt.pages 2).count = 2 ∧
    (toySt.pages ((toySt.pages 2).children 0)).level = 0 ∧
    (toySt.pages ((toySt.pages 2).children 1)).level = 0 ∧
    sepList (toySt.pages 2) = [3] ∧
    (BTree.lookup 50 toySt 3).2 = some 103 ∧
    (BTree.lookup 50 toySt 6).2 = none := by decide

/-- C10: LeafNode::erase on an empty leaf is not safe.  On the empty
leaf c10leaf (count 0, stale key 1 in slot 0) the source reads slot 0,
which is at an index >= count, finds it equal to the erased key and
decrements the uint16 count from 0 to 65535. -/
theorem C10_erase_empty_leaf_underflow :
    c10leaf.count = 0 ∧ (LeafNode.erase c10leaf 1).count = 65535 := by decide

/-- C4, counterexample: InnerNode::lower_bound does not restrict its
search to the count - 1 valid separator keys.  c4page has count = 2, so
its only valid separator is keys[0] = 3 < 5, and the claim then requires
lower_bound(5) to return (_, false); the code searches the stale slot
1 = count - 1 as well and returns (1, true). -/
theorem C4_counterexample :
    c4page.count = 2 ∧ c4page.keys 0 < 5 ∧
    InnerNode.lower_bound c4page 5 = (1, true) := by decide

/-- C5, counterexample: the separator returned by LeafNode::split is not
the first key of the right half.  Splitting the full capacity-4 leaf
with keys 1,2,3,4 returns separator 3 = keys[middle + 1], while the new
right page holds the single key 4: the separator is the LAST key of the
retained left half, not the first key of the right half. -/
theorem C5_counterexample :
    c5leaf.count = 4 ∧
    (LeafNode.split c5leaf zeroPage).2.2 = 3 ∧
    (LeafNode.split c5leaf zeroPage).2.1.count = 1 ∧
    (LeafNode.split c5leaf zeroPage).2.1.keys 0 = 4 ∧
    (LeafNode.split c5leaf zeroPage).1.count = 3 := by decide

/-- Decomposition of a prefix-listing at a cut point. -/
theorem listOf_append {α : Type} (f : Nat → α) (a b : Nat) :
    listOf f (a + b) = listOf f a ++ (List.range b).map (fun j => f (a + j)) := by
  unfold listOf
  rw [List.range_add, List.map_append, List.map_map]
  rfl

/-- Mapping over a nonempty range starts with the image of zero. -/
theorem range_map_succ {α : Type} (g : Nat → α) (b : Nat) :
    (List.range (b + 1)).map g = g 0 :: (List.range b).map (fun j => g (j + 1)) := by
  rw [List.range_succ_eq_map, List.map_cons, List.map_map]
  rfl

/-- Conservation of the leaf split: counts sum to the pre-split count
and the pairs of left then right concatenate to the pre-split pairs. -/
theorem leaf_split_conserves (p fresh : Page)
    (hcap : 2 ≤ p.count) (hcap2 : p.count < 65536) :
    (LeafNode.split p fresh).1.count + (LeafNode.split p fresh).2.1.count
      = p.count ∧
    pairList (LeafNode.split p fresh).1 ++ pairList (LeafNode.split p fresh).2.1
      = pairList p := by
  set cap := p.count with hcapdef
  set m := (cap - 1) / 2 with hm
  have hmlt : m < cap := by omega
  have hmu : u16 m = m := Nat.mod_eq_of_lt (by omega)
  have hncu : u16 (cap - m) = cap - m := Nat.mod_eq_of_lt (by omega)
  constructor
  · simp only [LeafNode.split, ← hm, ← hcapdef, hmu, hncu]
    omega
  · simp only [LeafNode.split, pairList, ← hm, ← hcapdef, hmu, hncu, listOf]
    rw [show (List.range cap) = List.range ((cap - m) + m) by congr 1; omega,
      List.range_add, List.map_append, List.map_map]
    congr 1
    apply List.map_congr_left
    intro a ha
    have halt : a < m := List.mem_range.mp ha
    simp only [Function.comp_apply]
    rw [if_pos halt, if_pos (by omega : a < m + 1)]

/-- Conservation of the inner split: counts sum to the pre-split count,
children of left then right concatenate to the pre-split children, and
separators of left, then the promoted separator, then separators of
right concatenate to the pre-split separators. -/
theorem inner_split_conserves (q fresh : Page)
    (hcap : 2 ≤ q.count) (hcap2 : q.count < 65536) :
    (InnerNode.split q fresh).1.count + (InnerNode.split q fresh).2.1.count
      = q.count ∧
    childList (InnerNode.split q fresh).1 ++ childList (InnerNode.split q fresh).2.1
      = childList q ∧
    sepList (InnerNode.split q fresh).1
      ++ (InnerNode.split q fresh).2.2 :: sepList (InnerNode.split q fresh).2.1
      = sepList q := by
  set cap := q.count with hcapdef
  set m := cap / 2 with hm
  have hm1 : 1 ≤ m := by omega
  have hmlt : m < cap := by omega
  have hmu : u16 m = m := Nat.mod_eq_of_lt (by omega)
  have hncu : u16 (cap - m) = cap - m := Nat.mod_eq_of_lt (by omega)
  refine ⟨?_, ?_, ?_⟩
  · simp only [InnerNode.split, ← hm, ← hcapdef, hmu, hncu]
    omega
  · simp only [InnerNode.split, childList, ← hm, ← hcapdef, hmu, hncu, listOf]
    rw [show (List.range cap) = List.range ((cap - m) + m) by congr 1; omega,
      List.range_add, List.map_append, List.map_map]
    congr 1
    apply List.map_congr_left
    intro a ha
    have halt : a < m := List.mem_range.mp ha
    simp only [Function.comp_apply]
    rw [if_pos halt]
  · simp only [InnerNode.split, sepList, ← hm, ← hcapdef, hmu, hncu]
    have hsum : cap - 1 = (cap - m - 1) + (m - 1 + 1) := by omega
    rw [show listOf q.keys (cap - 1)
          = listOf q.keys ((cap - m - 1) + (m - 1 + 1)) by rw [← hsum],
      listOf_append, range_map_succ (fun j => q.keys (cap - m - 1 + j)) (m - 1)]
    congr 1
    refine List.cons_eq_cons.mpr ⟨?_, ?_⟩
    · simp
    · apply List.map_congr_left
      intro a ha
      have halt : a < m - 1 := List.mem_range.mp ha
      rw [if_pos halt]
      congr 1
      omega

/-- C3: split conservation.  For a full leaf (count = kCapacity; as a
uint16 field a full count is below 2^16), LeafNode::split leaves the two
counts summing to the pre-split count and every (key, value) pair
present exactly once across the two pages (left pairs followed by right
pairs are exactly the pre-split pairs); for a full inner node,
InnerNode::split leaves every child page id present exactly once across
the two pages and every separator key present exactly once, the promoted
separator appearing in exactly one place, namely the return value handed
to the parent (left separators, then the promoted separator, then right
separators are exactly the pre-split separators). -/
theorem C3_split_conservation (p q fresh1 fresh2 : Page) (cap : Nat)
    (hcap : 2 ≤ cap) (hcap2 : cap < 65536)
    (hp : p.count = cap) (hq : q.count = cap) :
    ((LeafNode.split p fresh1).1.count + (LeafNode.split p fresh1).2.1.count
       = p.count ∧
     pairList (LeafNode.split p fresh1).1 ++ pairList (LeafNode.split p fresh1).2.1
       = pairList p) ∧
    ((InnerNode.split q fresh2).1.count + (InnerNode.split q fresh2).2.1.count
       = q.count ∧
     childList (InnerNode.split q fresh2).1 ++ childList (InnerNode.split q fresh2).2.1
       = childList q ∧
     sepList (InnerNode.split q fresh2).1
       ++ (InnerNode.split q fresh2).2.2 :: sepList (InnerNode.split q fresh2).2.1
       = sepList q) :=
  ⟨leaf_split_conserves p fresh1 (hp ▸ hcap) (hp ▸ hcap2),
   inner_split_conserves q fresh2 (hq ▸ hcap) (hq ▸ hcap2)⟩

/-- Witness for C3 at the concrete full capacity-4 leaf c5leaf and a
concrete full inner node. -/
theorem C3_witness :
    2 ≤ 4 ∧ (4 : Nat) < 65536 ∧ c5leaf.count = 4 ∧ c4page.count = 2 ∧
    (((LeafNode.split c5leaf zeroPage).1.count
        + (LeafNode.split c5leaf zeroPage).2.1.count = c5leaf.count ∧
      pairList (LeafNode.split c5leaf zeroPage).1
        ++ pairList (LeafNode.split c5leaf zeroPage).2.1 = pairList c5leaf)) := by
  refine ⟨by decide, by decide, by decide, by decide, ?_⟩
  exact (C3_split_conservation c5leaf c5leaf zeroPage zeroPage 4 (by decide)
    (by decide) rfl rfl).1

/-- C5, amended: leaf split convention.  For every full leaf (count =
kCapacity, a uint16 value) split into a fresh zero-level target page,
LeafNode::split keeps the lower count - middle entries in place with the
count reduced accordingly (middle = (count - 1) / 2), copies the upper
middle entries into the target page, which keeps level 0, and returns as
separator the key at index middle + 1 of the original keys: when the
capacity is ODD this is the first key of the right half, but when the
capacity is EVEN it is the LAST key of the retained left half, not the
first key of the right half. -/
theorem C5_leaf_split_convention (p fresh : Page) (cap : Nat)
    (hcap : 2 ≤ cap) (hcap2 : cap < 65536)
    (hfull : p.count = cap) (hfresh : fresh.level = 0) :
    (LeafNode.split p fresh).1.count = cap - (cap - 1) / 2 ∧
    (LeafNode.split p fresh).2.1.count = (cap - 1) / 2 ∧
    (LeafNode.split p fresh).2.1.level = 0 ∧
    (LeafNode.split p fresh).1.keys = p.keys ∧
    (∀ j, j < (cap - 1) / 2 →
      (LeafNode.split p fresh).2.1.keys j = p.keys (cap - (cap - 1) / 2 + j)) ∧
    (LeafNode.split p fresh).2.2 = p.keys ((cap - 1) / 2 + 1) ∧
    (cap % 2 = 0 →
      (LeafNode.split p fresh).2.2
        = p.keys ((LeafNode.split p fresh).1.count - 1)) ∧
    (cap % 2 = 1 →
      (LeafNode.split p fresh).2.2 = (LeafNode.split p fresh).2.1.keys 0) := by
  subst hfull
  set cap := p.count with hcapdef
  set m := (cap - 1) / 2 with hm
  have hmu : u16 m = m := Nat.mod_eq_of_lt (by omega)
  have hncu : u16 (cap - m) = cap - m := Nat.mod_eq_of_lt (by omega)
  refine ⟨?_, ?_, ?_, ?_, ?_, ?_, ?_, ?_⟩
  · simp only [LeafNode.split, ← hm, ← hcapdef, hmu, hncu]
  · simp only [LeafNode.split, ← hm, ← hcapdef, hmu, hncu]
  · simp only [LeafNode.split, hfresh]
  · simp only [LeafNode.split]
  · intro j hj
    simp only [LeafNode.split, ← hm, ← hcapdef]
    rw [if_pos hj]
  · simp only [LeafNode.split, ← hm, ← hcapdef]
  · intro hpar
    simp only [LeafNode.split, ← hm, ← hcapdef, hmu, hncu]
    congr 1
    omega
  · intro hpar
    have hm1 : 1 ≤ m := by omega
    simp only [LeafNode.split, ← hm, ← hcapdef, hmu, hncu]
    rw [if_pos (by omega : 0 < m)]
    congr 1
    omega

/-- Witness for the amended C5 at the concrete full capacity-4 leaf. -/
theorem C5_witness :
    2 ≤ 4 ∧ (4 : Nat) < 65536 ∧ c5leaf.count = 4 ∧ zeroPage.level = 0 ∧
    (LeafNode.split c5leaf zeroPage).2.2 = c5leaf.keys 2 := by
  refine ⟨by decide, by decide, by decide, by decide, ?_⟩
  exact (C5_leaf_split_convention c5leaf zeroPage 4 (by decide) (by decide)
    rfl rfl).2.2.2.2.2.1

/-- Invariant-carrying correctness of the binary-search loop: on a
strictly ascending prefix of length n, with the window bounds, the
everything-left-of-first-is-below-target invariant, and the
index-records-the-best-strict-upper-seen invariant, the loop returns the
least index holding a key at or above the target iff one exists. -/
theorem lbLoop_go (keys : Nat → Int) (target : Int) (n : Nat)
    (hsorted : ∀ j, j < n → ∀ i, i < j → keys i < keys j) :
    ∀ (fuel : Nat) (first last : Int) (index : Option Nat),
    0 ≤ first → last ≤ (n : Int) - 1 →
    (last + 1 - first).toNat < fuel →
    (∀ j : Nat, (j : Int) < first → j < n → keys j < target) →
    (∀ m : Nat, index = some m → m < n ∧ target < keys m ∧ last = (m : Int) - 1) →
    (index = none → last = (n : Int) - 1) →
    ((lbLoop keys target fuel first last index).2 = true →
       (lbLoop keys target fuel first last index).1 < n ∧
       target ≤ keys (lbLoop keys target fuel first last index).1 ∧
       ∀ j : Nat, j < (lbLoop keys target fuel first last index).1 →
         keys j < target) ∧
    ((lbLoop keys target fuel first last index).2 = false →
       ∀ j : Nat, j < n → keys j < target) := by
  intro fuel
  induction fuel with
  | zero =>
    intro first last index _ _ hfuel _ _ _
    omega
  | succ fuel ih =>
    intro first last index hf hl hfuel hleft hidx hnone
    by_cases hfl : first ≤ last
    · have hdiv0 : 0 ≤ (last - first) / 2 := by omega
      have hdiv1 : (last - first) / 2 ≤ last - first := by omega
      simp only [lbLoop, if_pos hfl]
      set middle := first + (last - first) / 2 with hmid
      have hm0 : first ≤ middle := by omega
      have hm1 : middle ≤ last := by omega
      have hmn : ((middle.toNat : Int)) = middle := Int.toNat_of_nonneg (by omega)
      have hmltn : middle.toNat < n := by omega
      by_cases hc1 : target = keys middle.toNat
      · rw [if_pos hc1]
        refine ⟨fun _ => ⟨hmltn, le_of_eq hc1, ?_⟩, fun hcontra => by simp at hcontra⟩
        intro j hj
        rw [hc1]
        exact hsorted middle.toNat hmltn j hj
      · rw [if_neg hc1]
        by_cases hc2 : target > keys middle.toNat
        · rw [if_pos hc2]
          apply ih (middle + 1) last index (by omega) hl (by omega) ?_ hidx hnone
          intro j hj hjn
          have hjm : j ≤ middle.toNat := by omega
          rcases Nat.lt_or_ge j middle.toNat with hlt | hge
          · exact lt_trans (hsorted middle.toNat hmltn j hlt) hc2
          · have : j = middle.toNat := by omega
            rw [this]
            exact hc2
        · rw [if_neg hc2]
          have hgt : target < keys middle.toNat :=
            lt_of_le_of_ne (le_of_not_lt hc2) hc1
          apply ih first (middle - 1) (some middle.toNat) hf (by omega)
            (by omega) hleft ?_ ?_
          · intro m hm
            have hmeq : m = middle.toNat := by
              injection hm with h
              exact h.symm
            subst hmeq
            exact ⟨hmltn, hgt, by omega⟩
          · intro hcontra
            cases hcontra
    · cases index with
      | none =>
        simp only [lbLoop, if_neg hfl]
        refine ⟨fun hcontra => by simp at hcontra, fun _ => ?_⟩
        intro j hjn
        have hlast : last = (n : Int) - 1 := hnone rfl
        exact hleft j (by omega) hjn
      | some m =>
        simp only [lbLoop, if_neg hfl]
        obtain ⟨hmn, hmgt, hmlast⟩ := hidx m rfl
        refine ⟨fun _ => ⟨hmn, le_of_lt hmgt, ?_⟩, fun hcontra => by simp at hcontra⟩
        intro j hj
        have : ((j : Int)) < first := by omega
        exact hleft j this (by omega)

/-- Contract of the shared lower_bound body on a strictly ascending
prefix of length count: empty gives (0, false); a true flag names the
least index at or above the target; a false flag means every searched
key is below the target. -/
theorem lower_bound_impl_spec (keys : Nat → Int) (n : Nat) (target : Int)
    (hsorted : ∀ j, j < n → ∀ i, i < j → keys i < keys j) :
    (n = 0 → lower_bound_impl keys n target = (0, false)) ∧
    ((lower_bound_impl keys n target).2 = true →
      (lower_bound_impl keys n target).1 < n ∧
      target ≤ keys (lower_bound_impl keys n target).1 ∧
      ∀ j, j < (lower_bound_impl keys n target).1 → keys j < target) ∧
    ((lower_bound_impl keys n target).2 = false →
      ∀ j, j < n → keys j < target) := by
  by_cases h0 : ((n : Int)) - 1 < 0
  · have hn0 : n = 0 := by omega
    subst hn0
    simp only [lower_bound_impl]
    refine ⟨fun _ => rfl, fun hcontra => by simp at hcontra, fun _ => ?_⟩
    intro j hj
    omega
  · have hn1 : 1 ≤ n := by omega
    by_cases hsp : ((n : Int)) - 1 = 1 ∧ keys 0 > target
    · simp only [lower_bound_impl, if_neg h0, if_pos hsp]
      refine ⟨fun h => by omega, fun _ => ⟨by omega, le_of_lt hsp.2, ?_⟩,
        fun hcontra => by simp at hcontra⟩
      intro j hj
      omega
    · simp only [lower_bound_impl, if_neg h0, if_neg hsp]
      have hgo := lbLoop_go keys target n hsorted (n + 1) 0 ((n : Int) - 1) none
        le_rfl le_rfl (by omega) (fun j hj _ => by omega)
        (fun m hm => by cases hm) (fun _ => rfl)
      exact ⟨fun h => by omega, hgo.1, hgo.2⟩

/-- C4, amended: lower_bound contract.  Both LeafNode::lower_bound and
InnerNode::lower_bound binary-search the FIRST count keys of the node
(the inner variant does not restrict itself to the count - 1 valid
separators).  On a node whose first count keys are strictly ascending,
lower_bound(target) returns (i, true) where i is the smallest index
below count with keys[i] >= target iff such an index exists, returns
(_, false) otherwise, and returns (0, false) on an empty node. -/
theorem C4_lower_bound_contract (p : Page) (target : Int)
    (hsorted : ∀ j, j < p.count → ∀ i, i < j → p.keys i < p.keys j) :
    InnerNode.lower_bound p target = LeafNode.lower_bound p target ∧
    (p.count = 0 → LeafNode.lower_bound p target = (0, false)) ∧
    ((LeafNode.lower_bound p target).2 = true →
      (LeafNode.lower_bound p target).1 < p.count ∧
      target ≤ p.keys (LeafNode.lower_bound p target).1 ∧
      ∀ j, j < (LeafNode.lower_bound p target).1 → p.keys j < target) ∧
    ((LeafNode.lower_bound p target).2 = false →
      ∀ j, j < p.count → p.keys j < target) :=
  ⟨rfl, lower_bound_impl_spec p.keys p.count target hsorted⟩

/-- Witness for the amended C4 on the concrete sorted leaf c5leaf with
target 3: the binary search returns index 2, the least index holding a
key at or above 3. -/
theorem C4_witness :
    (∀ j, j < c5leaf.count → ∀ i, i < j → c5leaf.keys i < c5leaf.keys j) ∧
    ((LeafNode.lower_bound c5leaf 3).2 = true →
      (LeafNode.lower_bound c5leaf 3).1 < c5leaf.count ∧
      (3 : Int) ≤ c5leaf.keys (LeafNode.lower_bound c5leaf 3).1 ∧
      ∀ j, j < (LeafNode.lower_bound c5leaf 3).1 → c5leaf.keys j < 3) :=
  ⟨by decide, (C4_lower_bound_contract c5leaf 3 (by decide)).2.2.1⟩

/-- Dirty-unfix counting distributes over log concatenation. -/
theorem dirtyUnfixes_append (l1 l2 : List Event) :
    dirtyUnfixes (l1 ++ l2) = dirtyUnfixes l1 + dirtyUnfixes l2 := by
  simp [dirtyUnfixes, List.filter_append]

/-- The lookup descent loop changes no page, no root, no allocator, and
performs no dirty unfix. -/
theorem lookupLoop_readonly (k : Int) :
    ∀ (fuel : Nat) (s : TreeState) (cur : Nat),
    (lookupLoop k fuel s cur).1.pages = s.pages ∧
    (lookupLoop k fuel s cur).1.root = s.root ∧
    (lookupLoop k fuel s cur).1.next_page_id = s.next_page_id ∧
    dirtyUnfixes (lookupLoop k fuel s cur).1.log = dirtyUnfixes s.log := by
  intro fuel
  induction fuel with
  | zero => intro s cur; exact ⟨rfl, rfl, rfl, rfl⟩
  | succ fuel ih =>
    intro s cur
    simp only [lookupLoop]
    by_cases hleaf : Node.is_leaf (s.pages cur)
    · simp only [if_pos hleaf]
      refine ⟨rfl, rfl, rfl, ?_⟩
      simp only [unfixE, dirtyUnfixes_append]
      rfl
    · simp only [if_neg hleaf]
      obtain ⟨h1, h2, h3, h4⟩ := ih
        (unfixE (fixE s ((s.pages cur).children
          (if (InnerNode.lower_bound (s.pages cur) k).2 then
            (InnerNode.lower_bound (s.pages cur) k).1
          else (s.pages cur).count - 1)) false) cur false)
        ((s.pages cur).children
          (if (InnerNode.lower_bound (s.pages cur) k).2 then
            (InnerNode.lower_bound (s.pages cur) k).1
          else (s.pages cur).count - 1))
      refine ⟨h1, h2, h3, ?_⟩
      rw [h4]
      simp only [unfixE, fixE, dirtyUnfixes_append]
      rfl

/-- C9: lookup is read-only.  For every fuel bound, every tree state and
every key, BTree::lookup leaves the root pointer, the next_page_id
allocator and the contents of every page unchanged, and it performs no
unfix with the dirty flag set (it never marks a page dirty). -/
theorem C9_lookup_readonly (fuel : Nat) (s : TreeState) (k : Int) :
    (BTree.lookup fuel s k).1.pages = s.pages ∧
    (BTree.lookup fuel s k).1.root = s.root ∧
    (BTree.lookup fuel s k).1.next_page_id = s.next_page_id ∧
    dirtyUnfixes (BTree.lookup fuel s k).1.log = dirtyUnfixes s.log := by
  unfold BTree.lookup
  cases hroot : s.root with
  | none => exact ⟨rfl, hroot, rfl, rfl⟩
  | some r =>
    obtain ⟨h1, h2, h3, h4⟩ := lookupLoop_readonly k fuel (fixE s r false) r
    refine ⟨h1, by rw [h2]; exact hroot, h3, ?_⟩
    rw [h4]
    simp only [fixE, dirtyUnfixes_append]
    rfl
